import Mathlib

/-!
Shallow embedding of the k-truss discovery program (`src/ktruss.cu`).

The program stores the graph in CSR form (`rowPtr`, `colIdx`) together with an
explicit edge list.  The kernel `countTriangles` computes, for each edge
`{u,v}`, the size of the intersection of the two sorted CSR neighbor lists via
a two-pointer merge that skips `v` in `u`'s list and `u` in `v`'s list.  The
host function `kTruss` then runs an iterative pruning loop (at most `numEdges`
rounds): each round marks every edge with `0 ≤ support < k-2` by setting its
support to `-1`, and the loop stops as soon as a round changes nothing.
Finally the edges with `support ≥ k-2` are reported together with their
support values.
-/

namespace KT

/-- CSR graph as in `struct Graph` of `ktruss.cu`: row pointers, column
indices, node count and the explicit edge list. -/
structure Graph where
  numNodes : Nat
  rowPtr : List Nat
  colIdx : List Nat
  edges : List (Nat × Nat)
deriving Repr, DecidableEq

/-- The CSR neighbor list of node `x`: `colIdx[rowPtr[x] .. rowPtr[x+1])`. -/
def neighborList (g : Graph) (x : Nat) : List Nat :=
  (g.colIdx.drop (g.rowPtr.getD x 0)).take (g.rowPtr.getD (x + 1) 0 - g.rowPtr.getD x 0)

/-- The two-pointer merge loop of the `countTriangles` kernel, on the two
neighbor lists.  `v` is skipped while scanning the first list (`u`'s
neighbors) and `u` is skipped while scanning the second (`v`'s neighbors);
a common element advances both pointers and increments the count.  The `fuel`
argument bounds the number of loop iterations; every iteration of the C loop
advances `i` or `j`, so `l1.length + l2.length` steps always suffice. -/
def countLoop (v u : Nat) : Nat → List Nat → List Nat → Nat
  | 0, _, _ => 0
  | _ + 1, [], _ => 0
  | _ + 1, _ :: _, [] => 0
  | fuel + 1, x :: xs, y :: ys =>
    if x = v then countLoop v u fuel xs (y :: ys)
    else if y = u then countLoop v u fuel (x :: xs) ys
    else if x = y then countLoop v u fuel xs ys + 1
    else if x < y then countLoop v u fuel xs (y :: ys)
    else countLoop v u fuel (x :: xs) ys

/-- Support of edge `{u,v}` as computed by the `countTriangles` kernel. -/
def countTriangles (g : Graph) (u v : Nat) : Nat :=
  countLoop v u ((neighborList g u).length + (neighborList g v).length)
    (neighborList g u) (neighborList g v)

/-- The initial support vector: one `countTriangles` result per edge
(`support[edgeIdx] = count`). -/
def initialSupport (g : Graph) : List Int :=
  g.edges.map (fun e => (countTriangles g e.1 e.2 : Int))

/-- Action of one pruning round on a single support entry: an entry with
`support[i] >= 0 && support[i] < k - 2` is set to `-1`, any other entry is
left unchanged. -/
def pruneEntry (k : Int) (x : Int) : Int :=
  if 0 ≤ x ∧ x < k - 2 then -1 else x

/-- One round of the pruning loop in `kTruss`: every edge with
`support[i] >= 0 && support[i] < k - 2` has its support set to `-1`. -/
def prunePass (k : Int) (s : List Int) : List Int :=
  s.map (pruneEntry k)

/-- The iterative pruning loop of `kTruss`: at most `fuel = numEdges` rounds,
stopping early when a round changes no support value (`changed` stays
false). -/
def pruneLoop (k : Int) : Nat → List Int → List Int
  | 0, s => s
  | n + 1, s =>
    let s2 := prunePass k s
    if s2 = s then s else pruneLoop k n s2

/-- The final support vector produced by `kTruss(g, k)`. -/
def kTruss (g : Graph) (k : Int) : List Int :=
  pruneLoop k g.edges.length (initialSupport g)

/-- The edges printed at the end of `kTruss`: those whose final support is
`≥ k - 2`, each reported with that support value. -/
def survivors (g : Graph) (k : Int) : List ((Nat × Nat) × Int) :=
  (g.edges.zip (kTruss g k)).filter (fun p => k - 2 ≤ p.2)

/-- Number of alive (not yet marked removed) entries of a support vector. -/
def aliveCount (s : List Int) : Nat :=
  (s.filter (fun x => 0 ≤ x)).length

/-- Well-formedness of a CSR graph: edge endpoints in range and distinct,
column indices in range, neighbor lists strictly ascending, and the neighbor
lists agree with the undirected edge list. -/
def validGraph (g : Graph) : Prop :=
  (∀ e ∈ g.edges, e.1 < g.numNodes ∧ e.2 < g.numNodes ∧ e.1 ≠ e.2) ∧
  (∀ c ∈ g.colIdx, c < g.numNodes) ∧
  (∀ x ∈ List.range g.numNodes, (neighborList g x).Sorted (· < ·)) ∧
  (∀ x ∈ List.range g.numNodes, ∀ y ∈ List.range g.numNodes,
    (y ∈ neighborList g x ↔ (x, y) ∈ g.edges ∨ (y, x) ∈ g.edges))

instance (g : Graph) : Decidable (validGraph g) := by
  unfold validGraph; infer_instance

/-- The 4-node, 5-edge graph of the spec's concrete scenario
(`{0,1},{0,2},{1,2},{1,3},{2,3}`), with a CSR index consistent with that
edge list. -/
def ex4 : Graph :=
  { numNodes := 4
    rowPtr := [0, 2, 5, 8, 10]
    colIdx := [1, 2, 0, 2, 3, 0, 1, 3, 1, 2]
    edges := [(0, 1), (0, 2), (1, 2), (1, 3), (2, 3)] }

/-- The graph induced by the single edge `{1,2}` (the survivor set that the
code reports for `ex4` at `k = 4`). -/
def ex4surv : Graph :=
  { numNodes := 4
    rowPtr := [0, 0, 1, 2, 2]
    colIdx := [2, 1]
    edges := [(1, 2)] }

lemma pruneEntry_idem (k x : Int) : pruneEntry k (pruneEntry k x) = pruneEntry k x := by
  unfold pruneEntry
  by_cases h : 0 ≤ x ∧ x < k - 2
  · rw [if_pos h]
    simp

  · rw [if_neg h]
    exact if_neg h

lemma prunePass_idem (k : Int) (s : List Int) :
    prunePass k (prunePass k s) = prunePass k s := by
  unfold prunePass
  rw [List.map_map]
  exact List.map_congr_left (fun x _ => pruneEntry_idem k x)

lemma pruneLoop_fixed (k : Int) (n : Nat) (t : List Int) (h : prunePass k t = t) :
    pruneLoop k n t = t := by
  cases n with
  | zero => rfl
  | succ m => simp [pruneLoop, h]

lemma pruneLoop_succ (k : Int) (n : Nat) (s : List Int) :
    pruneLoop k (n + 1) s = prunePass k s := by
  show (if prunePass k s = s then s else pruneLoop k n (prunePass k s)) = prunePass k s
  by_cases h : prunePass k s = s
  · rw [if_pos h, h]
  · rw [if_neg h]
    exact pruneLoop_fixed k n (prunePass k s) (prunePass_idem k s)

/-- The pruning loop of `kTruss` stabilises after its first round: the final
support vector is exactly one `prunePass` applied to the initial supports. -/
lemma kTruss_eq_prunePass (g : Graph) (k : Int) :
    kTruss g k = prunePass k (initialSupport g) := by
  unfold kTruss
  cases h : g.edges.length with
  | zero =>
    have he : g.edges = [] := List.length_eq_zero.mp h
    simp [pruneLoop, initialSupport, prunePass, he]
  | succ n => exact pruneLoop_succ k n (initialSupport g)

lemma initialSupport_nonneg (g : Graph) : ∀ x ∈ initialSupport g, 0 ≤ x := by
  intro x hx
  rcases List.mem_map.mp hx with ⟨e, _, he⟩
  exact he ▸ Int.natCast_nonneg _

lemma pruneEntry_of_nonneg (k x : Int) (hx : 0 ≤ x) :
    (k - 2 ≤ pruneEntry k x ↔ k - 2 ≤ x) ∧
      (k - 2 ≤ x → pruneEntry k x = x) := by
  unfold pruneEntry
  by_cases h : 0 ≤ x ∧ x < k - 2
  · rw [if_pos h]
    constructor
    · constructor
      · intro hle
        omega
      · intro hle
        omega
    · intro hle
      omega
  · rw [if_neg h]
    exact ⟨Iff.rfl, fun _ => rfl⟩

/-- Filtering the zipped edge list on the threshold after one pruning round is
the same as filtering on the initial (non-negative) supports. -/
lemma zip_filter_prunePass (k : Int) (es : List (Nat × Nat)) :
    ∀ s : List Int, (∀ x ∈ s, 0 ≤ x) →
      ((es.zip (prunePass k s)).filter (fun p => k - 2 ≤ p.2)) =
        ((es.zip s).filter (fun p => k - 2 ≤ p.2)) := by
  induction es with
  | nil => intro s _; rfl
  | cons e es ih =>
    intro s hs
    cases s with
    | nil => rfl
    | cons x xs =>
      have hx : 0 ≤ x := hs x (List.mem_cons_self x xs)
      have hxs : ∀ y ∈ xs, 0 ≤ y := fun y hy => hs y (List.mem_cons_of_mem x hy)
      have hiff := (pruneEntry_of_nonneg k x hx).1
      have heq := (pruneEntry_of_nonneg k x hx).2
      show List.filter _ ((e, pruneEntry k x) :: es.zip (prunePass k xs)) =
        List.filter _ ((e, x) :: es.zip xs)
      by_cases h : k - 2 ≤ x
      · rw [List.filter_cons_of_pos (by simpa using hiff.mpr h),
          List.filter_cons_of_pos (by simpa using h), heq h, ih xs hxs]
      · rw [List.filter_cons_of_neg (by simpa using fun hc => h (hiff.mp hc)),
          List.filter_cons_of_neg (by simpa using h), ih xs hxs]

lemma aliveCount_cons (x : Int) (xs : List Int) :
    aliveCount (x :: xs) = (if 0 ≤ x then 1 else 0) + aliveCount xs := by
  unfold aliveCount
  rw [List.filter_cons]
  by_cases h : 0 ≤ x
  · simp [h, Nat.add_comm]
  · simp [h]

lemma aliveCount_prunePass_le (k : Int) (s : List Int) :
    aliveCount (prunePass k s) ≤ aliveCount s := by
  induction s with
  | nil => exact Nat.le_refl _
  | cons x xs ih =>
    rw [show prunePass k (x :: xs) = pruneEntry k x :: prunePass k xs from rfl,
      aliveCount_cons, aliveCount_cons]
    by_cases hx : 0 ≤ x ∧ x < k - 2
    · rw [show pruneEntry k x = -1 from if_pos hx]
      have h1 : ¬(0 ≤ (-1 : Int)) := by norm_num
      rw [if_neg h1, if_pos hx.1]
      omega
    · rw [show pruneEntry k x = x from if_neg hx]
      omega

/-- A pruning round that changes the support vector strictly decreases the
number of alive edges. -/
lemma aliveCount_prunePass_lt (k : Int) (s : List Int) (h : prunePass k s ≠ s) :
    aliveCount (prunePass k s) < aliveCount s := by
  induction s with
  | nil => exact absurd rfl h
  | cons x xs ih =>
    rw [show prunePass k (x :: xs) = pruneEntry k x :: prunePass k xs from rfl] at h ⊢
    rw [aliveCount_cons, aliveCount_cons]
    by_cases hx : 0 ≤ x ∧ x < k - 2
    · rw [show pruneEntry k x = -1 from if_pos hx]
      have h1 : ¬(0 ≤ (-1 : Int)) := by norm_num
      rw [if_neg h1, if_pos hx.1]
      have := aliveCount_prunePass_le k xs
      omega
    · have hpe : pruneEntry k x = x := if_neg hx
      rw [hpe] at h ⊢
      have hne : prunePass k xs ≠ xs := by
        intro hc
        exact h (by rw [hc])
      have := ih hne
      omega

/-- C1: the claim states that when the peeling loop removes an edge `{u,v}`,
the supports of the still-alive edges `{u,w}`, `{v,w}` through each common
alive neighbor `w` are each decremented by 1, re-queuing them when they drop
below `k-2`.  The code does no such decrement: on the spec's 4-node graph
with `k = 4`, the four support-1 edges are removed (marked `-1`), yet the
support of edge `{1,2}` — which loses both of its triangles — remains at its
initial value 2 instead of being decremented to 0. -/
theorem c1_removal_does_not_decrement :
    initialSupport ex4 = [1, 1, 2, 1, 1] ∧ kTruss ex4 4 = [-1, -1, 2, -1, -1] := by
  decide

/-- C2: the claim states that `Peel(4)` on the graph
`{0,1},{0,2},{1,2},{1,3},{2,3}` removes the four support-1 edges in round 1,
the cascade drops `{1,2}` to support 0 and removes it in round 2, and the
final surviving set is empty.  The code performs no cascade: it reports edge
`{1,2}` as surviving with its initial support 2. -/
theorem c2_peel4_scenario_not_empty : survivors ex4 4 = [((1, 2), 2)] := by
  decide

/-- C3: the claim states that after convergence every surviving edge has
support `≥ k-2` counted over currently surviving edges.  The code violates
this: with `k = 4` on the spec's 4-node graph, edge `{1,2}` survives, but in
the graph induced by the surviving edge set its triangle count is 0, which is
below `k - 2 = 2`. -/
theorem c3_support_invariant_violated :
    survivors ex4 4 = [((1, 2), 2)] ∧ countTriangles ex4surv 1 2 = 0 ∧
      ((0 : Int) < 4 - 2) := by
  decide

/-- C5: the claim states that running Peel again on its own output yields the
identical surviving edge set.  For the code this fails: `kTruss` on the
spec's 4-node graph with `k = 4` reports `{1,2}` surviving, but running
`kTruss` on the graph induced by that output removes `{1,2}` (its support is
now 0), yielding the empty set instead. -/
theorem c5_not_a_fixed_point :
    survivors ex4 4 = [((1, 2), 2)] ∧ survivors ex4surv 4 = [] := by
  decide

/-- C6: for thresholds `k1 < k2` (with `k1 ≥ 2`), every edge reported
surviving by `kTruss` at `k2` is also reported surviving at `k1`. -/
theorem c6_monotone_in_k (g : Graph) (k1 k2 : Int) (h1 : 2 ≤ k1) (h12 : k1 < k2) :
    survivors g k2 ⊆ survivors g k1 := by
  intro p hp
  unfold survivors at hp ⊢
  rw [kTruss_eq_prunePass,
    zip_filter_prunePass k2 g.edges (initialSupport g) (initialSupport_nonneg g)] at hp
  rw [kTruss_eq_prunePass,
    zip_filter_prunePass k1 g.edges (initialSupport g) (initialSupport_nonneg g)]
  rcases List.mem_filter.mp hp with ⟨hmem, hcond⟩
  refine List.mem_filter.mpr ⟨hmem, ?_⟩
  simp only [decide_eq_true_eq] at hcond ⊢
  omega

theorem c6_monotone_in_k_witness :
    ((2 : Int) ≤ 3 ∧ (3 : Int) < 4) ∧ survivors ex4 4 ⊆ survivors ex4 3 :=
  ⟨by decide, c6_monotone_in_k ex4 3 4 (by decide) (by decide)⟩

/-- C7: the claim states that `k < 2` is rejected upfront with `InvalidK`
before any mutation of edge state.  The code contains no validation of `k`
at all: called with `k = 1` it runs the pruning loop to completion (removing
nothing, since no support is below `k - 2 = -1`) and reports every edge as
surviving with its initial support. -/
theorem c7_no_invalid_k_rejection :
    kTruss ex4 1 = initialSupport ex4 ∧
      survivors ex4 1 =
        [((0, 1), 1), ((0, 2), 1), ((1, 2), 2), ((1, 3), 1), ((2, 3), 1)] := by
  decide

/-- C8: the pruning loop always terminates at a fixed point — one more round
applied to the final support vector removes nothing — and any round that does
remove an edge strictly decreases the finite count of alive edges. -/
theorem c8_loop_terminates (g : Graph) (k : Int) (hk : 2 ≤ k) (s : List Int)
    (hs : prunePass k s ≠ s) :
    prunePass k (kTruss g k) = kTruss g k ∧
      aliveCount (prunePass k s) < aliveCount s := by
  constructor
  · rw [kTruss_eq_prunePass]
    exact prunePass_idem k (initialSupport g)
  · exact aliveCount_prunePass_lt k s hs

theorem c8_loop_terminates_witness :
    ((2 : Int) ≤ 4 ∧ prunePass 4 (initialSupport ex4) ≠ initialSupport ex4) ∧
      (prunePass 4 (kTruss ex4 4) = kTruss ex4 4 ∧
        aliveCount (prunePass 4 (initialSupport ex4)) < aliveCount (initialSupport ex4)) :=
  ⟨⟨by decide, by decide⟩, c8_loop_terminates ex4 4 (by decide) (initialSupport ex4) (by decide)⟩

/-- C9: the iterative pruning loop of `kTruss` is equivalent to a single
filter on the initial support vector: the reported edges are exactly those
whose initial support is `≥ k-2`, each carrying its initial support
unchanged, and a second pruning round after the first changes nothing (no
edge is ever removed after the first pass, and no surviving support is ever
decremented). -/
theorem c9_loop_is_single_filter (g : Graph) (k : Int) :
    survivors g k = ((g.edges.zip (initialSupport g)).filter (fun p => k - 2 ≤ p.2)) ∧
      prunePass k (prunePass k (initialSupport g)) = prunePass k (initialSupport g) := by
  constructor
  · unfold survivors
    rw [kTruss_eq_prunePass]
    exact zip_filter_prunePass k g.edges (initialSupport g) (initialSupport_nonneg g)
  · exact prunePass_idem k (initialSupport g)

/-- C10: for `k ≤ 2` the threshold `k-2` is `≤ 0`; since every computed
support is non-negative the removal test never fires, no edge is removed,
and every input edge is reported with its initial support. -/
theorem c10_no_removal_for_small_k (g : Graph) (k : Int) (hk : k ≤ 2) :
    kTruss g k = initialSupport g ∧
      survivors g k = g.edges.zip (initialSupport g) := by
  have hpass : prunePass k (initialSupport g) = initialSupport g := by
    unfold prunePass
    have hpt : ∀ x ∈ initialSupport g, pruneEntry k x = id x := by
      intro x hx
      have h0 := initialSupport_nonneg g x hx
      exact if_neg (fun hc => by omega)
    rw [List.map_congr_left hpt, List.map_id]
  refine ⟨by rw [kTruss_eq_prunePass, hpass], ?_⟩
  unfold survivors
  rw [kTruss_eq_prunePass, hpass]
  apply List.filter_eq_self.mpr
  intro p hp
  obtain ⟨e, x⟩ := p
  have hx := (List.of_mem_zip hp).2
  have h0 := initialSupport_nonneg g x hx
  simp only [decide_eq_true_eq]
  omega

theorem c10_no_removal_for_small_k_witness :
    ((2 : Int) ≤ 2) ∧
      (kTruss ex4 2 = initialSupport ex4 ∧
        survivors ex4 2 = ex4.edges.zip (initialSupport ex4)) :=
  ⟨by decide, c10_no_removal_for_small_k ex4 2 (by decide)⟩

/-- Number of common neighbors of `u` and `v` in the original edge list:
nodes `w` adjacent (in either orientation) to both `u` and `v`. -/
def commonNeighborCount (g : Graph) (u v : Nat) : Nat :=
  ((List.range g.numNodes).filter
    (fun w => decide (((u, w) ∈ g.edges ∨ (w, u) ∈ g.edges) ∧
      ((v, w) ∈ g.edges ∨ (w, v) ∈ g.edges)))).length

/-- The two-pointer merge loop, on strictly ascending lists and with enough
fuel, counts exactly the elements of the first list that also occur in the
second and are neither of the skipped endpoints `v` and `u`. -/
lemma countLoop_eq (v u : Nat) :
    ∀ (fuel : Nat) (l1 l2 : List Nat), l1.length + l2.length ≤ fuel →
      l1.Sorted (· < ·) → l2.Sorted (· < ·) →
      countLoop v u fuel l1 l2 =
        l1.countP (fun w => decide (w ≠ v ∧ w ≠ u ∧ w ∈ l2)) := by
  intro fuel
  induction fuel with
  | zero =>
    intro l1 l2 hlen _ _
    cases l1 with
    | nil => rfl
    | cons x xs => simp at hlen
  | succ f ih =>
    intro l1 l2 hlen hs1 hs2
    cases l1 with
    | nil => rfl
    | cons x xs =>
      cases l2 with
      | nil =>
        show (0 : Nat) = _
        symm
        rw [List.countP_eq_zero]
        intro a _
        simp
      | cons y ys =>
        have h1 := List.sorted_cons.mp hs1
        have h2 := List.sorted_cons.mp hs2
        have hlen1 : xs.length + (y :: ys).length ≤ f := by
          simp only [List.length_cons] at hlen ⊢
          omega
        have hlen2 : (x :: xs).length + ys.length ≤ f := by
          simp only [List.length_cons] at hlen ⊢
          omega
        have hlen3 : xs.length + ys.length ≤ f := by
          simp only [List.length_cons] at hlen
          omega
        show (if x = v then countLoop v u f xs (y :: ys)
          else if y = u then countLoop v u f (x :: xs) ys
          else if x = y then countLoop v u f xs ys + 1
          else if x < y then countLoop v u f xs (y :: ys)
          else countLoop v u f (x :: xs) ys) = _
        by_cases hxv : x = v
        · rw [if_pos hxv, ih xs (y :: ys) hlen1 h1.2 hs2, List.countP_cons]
          have hpx : (decide (x ≠ v ∧ x ≠ u ∧ x ∈ y :: ys)) = false := by
            simp [hxv]
          rw [hpx]
          simp
        · rw [if_neg hxv]
          by_cases hyu : y = u
          · rw [if_pos hyu, ih (x :: xs) ys hlen2 hs1 h2.2]
            apply List.countP_congr
            intro w _
            simp only [decide_eq_true_eq]
            constructor
            · rintro ⟨hwv, hwu, hwmem⟩
              exact ⟨hwv, hwu, List.mem_cons_of_mem y hwmem⟩
            · rintro ⟨hwv, hwu, hwmem⟩
              rcases List.mem_cons.mp hwmem with hh | hh
              · exact absurd (hyu ▸ hh) hwu
              · exact ⟨hwv, hwu, hh⟩
          · rw [if_neg hyu]
            by_cases hxy : x = y
            · rw [if_pos hxy, ih xs ys hlen3 h1.2 h2.2, List.countP_cons]
              have hpx : (decide (x ≠ v ∧ x ≠ u ∧ x ∈ y :: ys)) = true := by
                rw [decide_eq_true_eq]
                refine ⟨hxv, ?_, ?_⟩
                · intro hc
                  exact hyu (by rw [← hxy, hc])
                · rw [hxy]
                  exact List.mem_cons_self y ys
              rw [hpx]
              have hcong : List.countP (fun w => decide (w ≠ v ∧ w ≠ u ∧ w ∈ ys)) xs =
                  List.countP (fun w => decide (w ≠ v ∧ w ≠ u ∧ w ∈ y :: ys)) xs := by
                apply List.countP_congr
                intro w hw
                simp only [decide_eq_true_eq]
                have hxw : x < w := h1.1 w hw
                constructor
                · rintro ⟨a, b, c⟩
                  exact ⟨a, b, List.mem_cons_of_mem y c⟩
                · rintro ⟨a, b, c⟩
                  refine ⟨a, b, ?_⟩
                  rcases List.mem_cons.mp c with hh | hh
                  · exact absurd hh (by omega)
                  · exact hh
              rw [hcong]
              simp
            · rw [if_neg hxy]
              by_cases hlt : x < y
              · rw [if_pos hlt, ih xs (y :: ys) hlen1 h1.2 hs2, List.countP_cons]
                have hpx : (decide (x ≠ v ∧ x ≠ u ∧ x ∈ y :: ys)) = false := by
                  rw [decide_eq_false_iff_not]
                  rintro ⟨-, -, hc⟩
                  rcases List.mem_cons.mp hc with hh | hh
                  · omega
                  · have := h2.1 x hh
                    omega
                rw [hpx]
                simp
              · rw [if_neg hlt, ih (x :: xs) ys hlen2 hs1 h2.2]
                apply List.countP_congr
                intro w hw
                simp only [decide_eq_true_eq]
                have hxw : x ≤ w := by
                  rcases List.mem_cons.mp hw with hh | hh
                  · omega
                  · have := h1.1 w hh
                    omega
                constructor
                · rintro ⟨a, b, c⟩
                  exact ⟨a, b, List.mem_cons_of_mem y c⟩
                · rintro ⟨a, b, c⟩
                  refine ⟨a, b, ?_⟩
                  rcases List.mem_cons.mp c with hh | hh
                  · exact absurd hh (by omega)
                  · exact hh

lemma mem_colIdx_of_mem_neighborList (g : Graph) (x w : Nat)
    (h : w ∈ neighborList g x) : w ∈ g.colIdx :=
  List.mem_of_mem_drop (List.mem_of_mem_take h)

/-- C4: for every edge `{u,v}` of a valid graph, the `countTriangles` kernel
computes, via the two-pointer merge with endpoint skipping, the size of the
intersection of the sorted neighbor lists of `u` and `v` — which equals the
number of common neighbors `w` with both `{u,w}` and `{v,w}` in the original
edge set. -/
theorem c4_support_counts_common_neighbors (g : Graph) (hg : validGraph g)
    (u v : Nat) (huv : (u, v) ∈ g.edges) :
    countTriangles g u v = commonNeighborCount g u v := by
  obtain ⟨hedge, hcol, hsorted, hmem⟩ := hg
  have hu : u < g.numNodes := (hedge _ huv).1
  have hv : v < g.numNodes := (hedge _ huv).2.1
  have s1 : (neighborList g u).Sorted (· < ·) := hsorted u (List.mem_range.mpr hu)
  have s2 : (neighborList g v).Sorted (· < ·) := hsorted v (List.mem_range.mpr hv)
  unfold countTriangles
  rw [countLoop_eq v u _ (neighborList g u) (neighborList g v) (Nat.le_refl _) s1 s2]
  unfold commonNeighborCount
  rw [List.countP_eq_length_filter]
  apply List.Perm.length_eq
  apply List.perm_of_nodup_nodup_toFinset_eq
  · exact List.Nodup.filter _ (List.Sorted.nodup s1)
  · exact List.Nodup.filter _ (List.nodup_range _)
  · apply Finset.ext
    intro w
    rw [List.mem_toFinset, List.mem_toFinset, List.mem_filter, List.mem_filter]
    simp only [decide_eq_true_eq]
    constructor
    · rintro ⟨hwl, hwv, hwu, hwnv⟩
      have hwn : w < g.numNodes := hcol w (mem_colIdx_of_mem_neighborList g u w hwl)
      refine ⟨List.mem_range.mpr hwn, ?_, ?_⟩
      · exact (hmem u (List.mem_range.mpr hu) w (List.mem_range.mpr hwn)).mp hwl
      · exact (hmem v (List.mem_range.mpr hv) w (List.mem_range.mpr hwn)).mp hwnv
    · rintro ⟨hwr, hadju, hadjv⟩
      have hwn : w < g.numNodes := List.mem_range.mp hwr
      have hwu : w ≠ u := by
        intro hc
        subst hc
        rcases hadju with h | h
        · exact (hedge _ h).2.2 rfl
        · exact (hedge _ h).2.2 rfl
      have hwv : w ≠ v := by
        intro hc
        subst hc
        rcases hadjv with h | h
        · exact (hedge _ h).2.2 rfl
        · exact (hedge _ h).2.2 rfl
      exact ⟨(hmem u (List.mem_range.mpr hu) w (List.mem_range.mpr hwn)).mpr hadju,
        hwv, hwu, (hmem v (List.mem_range.mpr hv) w (List.mem_range.mpr hwn)).mpr hadjv⟩

theorem c4_support_counts_common_neighbors_witness :
    (validGraph ex4 ∧ (0, 1) ∈ ex4.edges) ∧
      countTriangles ex4 0 1 = commonNeighborCount ex4 0 1 :=
  ⟨⟨by decide, by decide⟩,
    c4_support_counts_common_neighbors ex4 (by decide) 0 1 (by decide)⟩

end KT
